import Mathlib

/-!
Verification of the tabular data-preparation engine of the
`abandoned-datathon-starter` repository: the missing-data wrangling
engine (`wrangle_na` with strategies `cc`, `fi`, `fii`, `gm`, `mice`),
the missingness-pattern encoder, the name canonicalizer
(`_column_wrangler`), the categorical restriction of the type wrangler
(`_factor_wrangler`), and the Gelman standardizer
(`gelman_standardize_data`).

The repository ships only the pipeline wiring (`src/pipeline.py`), the
flow registration script, and the test suite
(`src/tests/test_tasks.py`); the module `src/tasks.py` that implements
the tasks themselves is not part of the sources.  The definitions below
are therefore modelled from the specification, with the concrete
behaviour pinned wherever the shipped test suite fixes it (cell values,
dtype bookkeeping, indicator/interaction column naming and contents).
Tables are idealized exactly: pandas nullable cells become `Option`
values, float cells become exact rationals (reals for the standardizer,
whose contract involves a square root), and `pd.NA` becomes `none`.
-/

namespace Datathon

/-- Modelled from the spec: a typed cell value of a table.  The column
type universe of the data model is {nullable integer, float, boolean,
categorical, string}; categorical categories and string cells are
modelled as strings, numeric cells as exact numbers. -/
inductive Val where
  | int (n : ℤ)
  | float (q : ℚ)
  | bool (b : Bool)
  | str (s : String)
  deriving DecidableEq

/-- Modelled from the spec: the declared column type.  A categorical
type carries its ordered flag and its fixed category list, as in the
data model of the spec. -/
inductive Dtype where
  | int
  | float
  | bool
  | cat (ordered : Bool) (cats : List Val)
  | string
  deriving DecidableEq

/-- Modelled from the spec: a named column with a declared dtype and a
positionally indexed list of nullable cells (`none` is the missing
marker). -/
structure Column where
  name : String
  dtype : Dtype
  cells : List (Option Val)
  deriving DecidableEq

/-- Modelled from the spec: a table is an ordered collection of named
columns together with a stable row-identifier list; rows are positionally
aligned across columns. -/
structure Table where
  index : List ℤ
  cols : List Column
  deriving DecidableEq

/-- Row `i` is fully observed: every column has a non-missing cell there. -/
def rowComplete (t : Table) (i : ℕ) : Bool :=
  t.cols.all fun c => (c.cells.getD i none).isSome

/-- Positions of the fully observed rows. -/
def keepRows (t : Table) : List ℕ :=
  (List.range t.index.length).filter (rowComplete t)

/-- Modelled from the spec: the `cc` (complete-case) strategy of the
missing `src/tasks.py`.  Drops every row containing at least one missing
value; surviving rows keep their original row identifiers and all
columns keep their dtype. -/
def cc (t : Table) : Table where
  index := (keepRows t).map fun i => t.index.getD i 0
  cols := t.cols.map fun c =>
    { c with cells := (keepRows t).map fun i => c.cells.getD i none }

/-- Observed (non-missing) values of a column, in column order. -/
def obsVals (c : Column) : List Val := c.cells.filterMap id

/-- Numeric reading of a cell value, used for the mean of a float column. -/
def ratOf : Val → ℚ
  | .int n => (n : ℚ)
  | .float q => q
  | .bool b => if b then 1 else 0
  | .str _ => 0

/-- Integer reading of a cell value, used for the median of an integer
column. -/
def intOf : Val → ℤ
  | .int n => n
  | .float q => ⌊q⌋
  | .bool b => if b then 1 else 0
  | .str _ => 0

/-- Mean of a list of rationals. -/
def meanQ (l : List ℚ) : ℚ := l.sum / l.length

/-- Ascending sort of a list of integers. -/
def sortInts (l : List ℤ) : List ℤ := l.insertionSort (· ≤ ·)

/-- Modelled from the spec: the median of an integer column, truncated
to an integer for an even number of observations. -/
def medianInt (l : List ℤ) : ℤ :=
  let s := sortInts l
  let n := s.length
  if n % 2 = 1 then s.getD (n / 2) 0
  else (s.getD (n / 2 - 1) 0 + s.getD (n / 2) 0) / 2

/-- Core of the mode computation: fold over the remaining values,
replacing the current best only on a strictly larger count in `L`, so
ties are broken by the first-encountered value. -/
def modeCore (L : List Val) (b : Val) (xs : List Val) : Val :=
  xs.foldl (fun acc v => if L.count acc < L.count v then v else acc) b

/-- Modelled from the spec: the mode of a list of observed values (most
frequent value, ties broken by the first-encountered value in column
order).  Junk default on the empty list, which the fill step never
uses. -/
def modeD (l : List Val) : Val :=
  match l with
  | [] => .bool false
  | x :: xs => modeCore l x xs

/-- Modelled from the spec: the per-dtype fill value of the `fi` family
of strategies: float columns use the column mean, integer columns the
column median truncated to an integer, categorical and boolean columns
the column mode.  A column with no observed values (or a string column)
gets no fill value. -/
def fillValue (c : Column) : Option Val :=
  if obsVals c = [] then none
  else
    match c.dtype with
    | .float => some (.float (meanQ ((obsVals c).map ratOf)))
    | .int => some (.int (medianInt ((obsVals c).map intOf)))
    | .cat _ _ => some (modeD (obsVals c))
    | .bool => some (modeD (obsVals c))
    | .string => none

/-- Modelled from the spec: fill the missing entries of one column with
its per-dtype fill value, leaving every observed cell untouched and the
name and dtype unchanged. -/
def fillColumn (c : Column) : Column where
  name := c.name
  dtype := c.dtype
  cells :=
    match fillValue c with
    | none => c.cells
    | some v => c.cells.map fun x => some (x.getD v)

/-- Modelled from the spec: the `fi` (fill-imputation) strategy fills
each column independently. -/
def fi (t : Table) : Table where
  index := t.index
  cols := t.cols.map fillColumn

/-- Missingness pattern of row `i`: one bit per column, true where the
cell is missing. -/
def rowPattern (t : Table) (i : ℕ) : List Bool :=
  t.cols.map fun c => (c.cells.getD i none).isNone

/-- Modelled from the spec: the distinct missingness patterns of the
table that have at least one missing column; the all-zero pattern is
never materialized. -/
def naPatterns (t : Table) : List (List Bool) :=
  (((List.range t.index.length).map (rowPattern t)).filter fun p => p.any id).dedup

/-- Deterministic indicator-column name built from the pattern's bit
string in the fixed column order. -/
def naName (p : List Bool) : String :=
  "na_" ++ String.mk (p.map fun b => if b then '1' else '0')

/-- Modelled from the spec: the boolean indicator column of one
missingness pattern: true exactly on the rows whose pattern it is. -/
def indicatorCol (t : Table) (p : List Bool) : Column where
  name := naName p
  dtype := .bool
  cells := (List.range t.index.length).map fun i =>
    some (.bool (decide (rowPattern t i = p)))

/-- Indicator columns of all materialized missingness patterns. -/
def indicatorCols (t : Table) : List Column :=
  (naPatterns t).map (indicatorCol t)

/-- Modelled from the spec: the `fii` strategy: the `fi` fill, then the
missingness-pattern indicator columns appended. -/
def fii (t : Table) : Table where
  index := t.index
  cols := (fi t).cols ++ indicatorCols t

/-- Interaction-column name for a feature column and an indicator
column, as fixed by the repository's test suite. -/
def interName (f ind : String) : String :=
  "Q(\"" ++ f ++ "\"):Q(\"" ++ ind ++ "\")"

/-- Modelled from the spec and the repository's tests: the interaction
column of a feature column and a missingness pattern under the `gm`
strategy.  The test suite (`test_wrangle_na_gm`) fixes its cells: the
filled feature value on every row where the indicator is 0, and the
missing marker on the rows whose pattern matches the indicator. -/
def interCol (t : Table) (c : Column) (p : List Bool) : Column where
  name := interName c.name (naName p)
  dtype := c.dtype
  cells := (List.range t.index.length).map fun i =>
    if rowPattern t i = p then none else (fillColumn c).cells.getD i none

/-- Concatenation of the lists produced by `f` over a list. -/
def concatMap (f : α → List β) : List α → List β
  | [] => []
  | x :: xs => f x ++ concatMap f xs

/-- Interaction columns of the `gm` strategy: one per (feature column,
indicator column) pair, features in column order outermost. -/
def interCols (t : Table) : List Column :=
  concatMap (fun c => (naPatterns t).map (interCol t c)) t.cols

/-- Modelled from the spec: the `gm` ("Gelman") strategy: the `fii`
result with the interaction columns appended. -/
def gm (t : Table) : Table where
  index := t.index
  cols := (fii t).cols ++ interCols t

/-- Modelled from the spec: the `mice` strategy.  Its full
chained-equations algorithm is not pinned by the spec; the spec's
minimum acceptable substitute is per-column conditional-mean imputation,
modelled here as one deterministic filled draw.  No claim constrains its
output beyond returning a table. -/
def mice (t : Table) : Table := fi t

/-- Modelled from the spec: the `wrangle_na` dispatch of the missing
`src/tasks.py`: a strategy selector outside {cc, fi, fii, gm, mice}
fails fast with a configuration error naming the invalid selector. -/
def wrangle_na (t : Table) (method : String) : Except String Table :=
  if method = "cc" then .ok (cc t)
  else if method = "fi" then .ok (fi t)
  else if method = "fii" then .ok (fii t)
  else if method = "gm" then .ok (gm t)
  else if method = "mice" then .ok (mice t)
  else .error ("Invalid method: " ++ method)

/-- Air-quality scenario table of the spec and of `test_wrangle_na`:
rows 3, 4, 5 and 9 contain missing values. -/
def airqualityNA : Table where
  index := [0, 1, 2, 3, 4, 5, 6, 7, 8, 9]
  cols :=
    [ { name := "ozone", dtype := .int,
        cells := [some (.int 41), some (.int 36), some (.int 12), none, none,
          some (.int 28), some (.int 23), some (.int 19), some (.int 8), none] },
      { name := "solar", dtype := .int,
        cells := [some (.int 190), some (.int 118), some (.int 149),
          some (.int 313), none, none, some (.int 299), some (.int 99),
          some (.int 19), some (.int 194)] },
      { name := "wind", dtype := .float,
        cells := [some (.float 7.4), some (.float 8), some (.float 12.6),
          some (.float 11.5), some (.float 14.3), some (.float 14.9),
          some (.float 8.6), some (.float 13.8), some (.float 20.1), none] },
      { name := "dummy", dtype := .bool,
        cells := [some (.bool false), some (.bool false), some (.bool false),
          some (.bool true), some (.bool true), some (.bool true),
          some (.bool true), some (.bool true), some (.bool true), none] } ]

/-- Integer column of the mixed-dtype table of `test_wrangle_na_fi`:
observed values 1, 2, 4, median 2. -/
def intX : Column where
  name := "int_x"
  dtype := .int
  cells := [some (.int 1), some (.int 2), none, some (.int 4)]

/-- Float column of the mixed-dtype table: observed values 1.5, 2.5,
2.0, mean 2.0. -/
def floatX : Column where
  name := "float_x"
  dtype := .float
  cells := [some (.float 1.5), none, some (.float 2.5), some (.float 2)]

/-- Categorical column of the mixed-dtype table: mode "A". -/
def catX : Column where
  name := "cat_x"
  dtype := .cat false [.str "A", .str "B"]
  cells := [some (.str "A"), some (.str "A"), some (.str "B"), none]

/-- Boolean column of the mixed-dtype table: mode `false`. -/
def boolX : Column where
  name := "bool_x"
  dtype := .bool
  cells := [some (.bool false), some (.bool true), some (.bool false), none]

/-- Mixed-dtype table of `test_wrangle_na_fi` / `fii` / `gm`: one
integer, one float, one categorical and one boolean column, each with
one missing cell. -/
def exampleT : Table where
  index := [0, 1, 2, 3]
  cols := [intX, floatX, catX, boolX]

/-! General list helper lemmas. -/

lemma map_getD_range (l : List α) (d : α) :
    (List.range l.length).map (fun i => l.getD i d) = l := by
  apply List.ext_getElem (by simp)
  intro i h1 h2
  simp [List.getD_eq_getElem?_getD, List.getElem?_eq_getElem h2]

lemma getD_map_of_lt (f : α → β) (l : List α) {i : ℕ} (h : i < l.length)
    (d : β) (d₂ : α) : (l.map f).getD i d = f (l.getD i d₂) := by
  simp [List.getD_eq_getElem?_getD, List.getElem?_eq_getElem, h]

lemma getD_range_map (f : ℕ → β) {n i : ℕ} (h : i < n) (d : β) :
    ((List.range n).map f).getD i d = f i := by
  simp [List.getD_eq_getElem?_getD, List.getElem?_eq_getElem, h]

lemma map_concatMap (g : β → γ) (f : α → List β) (l : List α) :
    (concatMap f l).map g = concatMap (fun x => (f x).map g) l := by
  induction l with
  | nil => rfl
  | cons x xs ih => simp [concatMap, ih]

lemma mem_concatMap {f : α → List β} {l : List α} {b : β} :
    b ∈ concatMap f l ↔ ∃ a ∈ l, b ∈ f a := by
  induction l with
  | nil => simp [concatMap]
  | cons x xs ih => simp [concatMap, ih]

/-! Basic structure of the strategies. -/

lemma fillColumn_dtype (c : Column) : (fillColumn c).dtype = c.dtype := rfl

lemma fillColumn_name (c : Column) : (fillColumn c).name = c.name := rfl

lemma fi_cols (t : Table) : (fi t).cols = t.cols.map fillColumn := rfl

lemma fii_cols (t : Table) : (fii t).cols = (fi t).cols ++ indicatorCols t := rfl

lemma gm_cols (t : Table) : (gm t).cols = (fii t).cols ++ interCols t := rfl

lemma indicatorCol_dtype (t : Table) (p : List Bool) :
    (indicatorCol t p).dtype = .bool := rfl

lemma interCol_dtype (t : Table) (c : Column) (p : List Bool) :
    (interCol t c p).dtype = c.dtype := rfl

/-- C9: for every table and every strategy selector outside
{cc, fi, fii, gm, mice}, `wrangle_na` fails fast with a configuration
error naming the invalid selector, and never returns a table. -/
theorem wrangle_na_unknown_method_error (t : Table) (m : String)
    (h : m ∉ (["cc", "fi", "fii", "gm", "mice"] : List String)) :
    wrangle_na t m = .error ("Invalid method: " ++ m)
    ∧ ∀ t2 : Table, wrangle_na t m ≠ .ok t2 := by
  simp only [List.mem_cons, List.not_mem_nil, or_false, not_or] at h
  obtain ⟨h1, h2, h3, h4, h5⟩ := h
  constructor
  · simp [wrangle_na, h1, h2, h3, h4, h5]
  · intro t2
    simp [wrangle_na, h1, h2, h3, h4, h5]

/-- Witness for C9 at a concrete table and the concrete selector `xx`. -/
theorem wrangle_na_unknown_method_error_witness :
    wrangle_na ⟨[], []⟩ "xx" = .error ("Invalid method: " ++ "xx")
    ∧ ∀ t2 : Table, wrangle_na ⟨[], []⟩ "xx" ≠ .ok t2 :=
  wrangle_na_unknown_method_error ⟨[], []⟩ "xx" (by decide)

/-- C2: the `cc` strategy drops exactly the rows containing at least one
missing value: the surviving positions are the fully observed ones, the
surviving rows keep their original identifiers (a sublist of the input
index, not renumbered), columns keep name and dtype, the output has zero
missing cells, the output is nonempty whenever some row is fully
observed, and on the air-quality scenario table the result is exactly
rows {0, 1, 2, 6, 7, 8} with 4 columns. -/
theorem wrangle_na_cc_spec :
    (∀ t : Table,
      wrangle_na t "cc" = .ok (cc t)
      ∧ keepRows t = (List.range t.index.length).filter (rowComplete t)
      ∧ (cc t).index = (keepRows t).map (fun i => t.index.getD i 0)
      ∧ (cc t).cols.map Column.dtype = t.cols.map Column.dtype
      ∧ (cc t).cols.map Column.name = t.cols.map Column.name
      ∧ List.Sublist (cc t).index t.index
      ∧ (∀ c ∈ (cc t).cols, ∀ x ∈ c.cells, x.isSome = true)
      ∧ ((∃ i, i < t.index.length ∧ rowComplete t i = true) → (cc t).index ≠ []))
    ∧ (cc airqualityNA).index = [0, 1, 2, 6, 7, 8]
    ∧ (cc airqualityNA).cols.length = 4 := by
  refine ⟨fun t => ⟨rfl, rfl, rfl, ?_, ?_, ?_, ?_, ?_⟩, by decide, by decide⟩
  · show (t.cols.map _).map _ = _
    rw [List.map_map]
    exact List.map_congr_left fun c _ => rfl
  · show (t.cols.map _).map _ = _
    rw [List.map_map]
    exact List.map_congr_left fun c _ => rfl
  · have h1 : List.Sublist (keepRows t) (List.range t.index.length) :=
      List.filter_sublist _
    have h2 := h1.map (fun i => t.index.getD i 0)
    rw [map_getD_range] at h2
    exact h2
  · intro c hc x hx
    obtain ⟨c0, hc0, rfl⟩ := List.mem_map.1 hc
    obtain ⟨i, hi, rfl⟩ := List.mem_map.1 hx
    have hcomp := (List.mem_filter.1 hi).2
    rw [rowComplete, List.all_eq_true] at hcomp
    exact hcomp c0 hc0
  · rintro ⟨i, hlt, hcomp⟩
    have hi : i ∈ keepRows t :=
      List.mem_filter.2 ⟨List.mem_range.2 hlt, hcomp⟩
    exact List.ne_nil_of_mem (List.mem_map_of_mem _ hi)

/-- Witness for C2: the air-quality table has a fully observed row, so
its complete-case output is nonempty, and the first cell of the
surviving ozone column is observed. -/
theorem wrangle_na_cc_spec_witness :
    (cc airqualityNA).index ≠ []
    ∧ (some (Val.int 41)).isSome = true := by
  constructor
  · exact (wrangle_na_cc_spec.1 airqualityNA).2.2.2.2.2.2.2 ⟨0, by decide, by decide⟩
  · exact (wrangle_na_cc_spec.1 airqualityNA).2.2.2.2.2.2.1
      { name := "ozone", dtype := .int,
        cells := [some (.int 41), some (.int 36), some (.int 12),
          some (.int 23), some (.int 19), some (.int 8)] }
      (by decide) (some (.int 41)) (by decide)

/-- C5: for each of `fi`, `fii` and `gm`, every input column keeps its
declared dtype; the appended indicator columns are boolean, and the only
other appended columns are `gm`'s interaction columns, whose dtype
mirrors the source feature column. -/
theorem wrangle_na_type_preservation (t : Table) :
    wrangle_na t "fi" = .ok (fi t)
    ∧ wrangle_na t "fii" = .ok (fii t)
    ∧ wrangle_na t "gm" = .ok (gm t)
    ∧ (fi t).cols.map Column.dtype = t.cols.map Column.dtype
    ∧ (fii t).cols.map Column.dtype
        = t.cols.map Column.dtype ++ (naPatterns t).map (fun _ => Dtype.bool)
    ∧ (gm t).cols.map Column.dtype
        = t.cols.map Column.dtype ++ (naPatterns t).map (fun _ => Dtype.bool)
          ++ concatMap (fun c => (naPatterns t).map fun _ => c.dtype) t.cols := by
  have hf : ∀ l : List Column, (l.map fillColumn).map Column.dtype
      = l.map Column.dtype := by
    intro l
    rw [List.map_map]
    exact List.map_congr_left fun c _ => rfl
  have hind : (indicatorCols t).map Column.dtype
      = (naPatterns t).map fun _ => Dtype.bool := by
    rw [indicatorCols, List.map_map]
    exact List.map_congr_left fun p _ => rfl
  have hint : (interCols t).map Column.dtype
      = concatMap (fun c => (naPatterns t).map fun _ => c.dtype) t.cols := by
    rw [interCols, map_concatMap]
    congr 1
    funext c
    rw [List.map_map]
    exact List.map_congr_left fun p _ => rfl
  refine ⟨rfl, rfl, rfl, hf t.cols, ?_, ?_⟩
  · rw [fii_cols, List.map_append, fi_cols, hf, hind]
  · rw [gm_cols, List.map_append, fii_cols, List.map_append, fi_cols, hf,
      hind, hint]

/-! Mode: most frequent value, ties broken by the first-encountered
value. -/

lemma modeCore_spec (L : List Val) (xs : List Val) : ∀ b : Val,
    (modeCore L b xs = b ∨ modeCore L b xs ∈ xs)
    ∧ L.count b ≤ L.count (modeCore L b xs)
    ∧ (∀ v ∈ xs, L.count v ≤ L.count (modeCore L b xs))
    ∧ (L.count (modeCore L b xs) ≤ L.count b → modeCore L b xs = b) := by
  induction xs with
  | nil =>
    intro b
    refine ⟨Or.inl rfl, le_refl _, ?_, fun _ => rfl⟩
    intro v hv
    exact absurd hv (List.not_mem_nil v)
  | cons v vs ih =>
    intro b
    have hstep : modeCore L b (v :: vs)
        = modeCore L (if L.count b < L.count v then v else b) vs := by
      simp [modeCore]
    by_cases h : L.count b < L.count v
    · rw [hstep, if_pos h]
      obtain ⟨m1, m2, m3, m4⟩ := ih v
      refine ⟨?_, le_trans (le_of_lt h) m2, ?_, ?_⟩
      · rcases m1 with h1 | h1
        · exact Or.inr (by rw [h1]; exact List.mem_cons_self v vs)
        · exact Or.inr (List.mem_cons_of_mem v h1)
      · intro w hw
        rcases List.mem_cons.1 hw with rfl | hw2
        · exact m2
        · exact m3 w hw2
      · intro hle
        exact ((not_le.2 (lt_of_lt_of_le h m2)) hle).elim
    · rw [hstep, if_neg h]
      obtain ⟨m1, m2, m3, m4⟩ := ih b
      refine ⟨?_, m2, ?_, m4⟩
      · rcases m1 with h1 | h1
        · exact Or.inl h1
        · exact Or.inr (List.mem_cons_of_mem v h1)
      · intro w hw
        rcases List.mem_cons.1 hw with rfl | hw2
        · exact le_trans (not_lt.1 h) m2
        · exact m3 w hw2

lemma modeCore_first (L : List Val) (xs : List Val) : ∀ b : Val,
    (b :: xs).find? (fun v => decide (L.count (modeCore L b xs) ≤ L.count v))
      = some (modeCore L b xs) := by
  induction xs with
  | nil =>
    intro b
    simp [modeCore, List.find?]
  | cons v vs ih =>
    intro b
    have hstep : modeCore L b (v :: vs)
        = modeCore L (if L.count b < L.count v then v else b) vs := by
      simp [modeCore]
    by_cases h : L.count b < L.count v
    · rw [hstep, if_pos h]
      have hr := (modeCore_spec L vs v).2.1
      have hb : ¬ (L.count (modeCore L v vs) ≤ L.count b) :=
        not_le.2 (lt_of_lt_of_le h hr)
      rw [List.find?_cons_of_neg _ (by simpa using hb)]
      exact ih v
    · rw [hstep, if_neg h]
      have hivb := ih b
      by_cases hpb : L.count (modeCore L b vs) ≤ L.count b
      · rw [List.find?_cons_of_pos _ (by simpa using hpb)] at hivb
        rw [List.find?_cons_of_pos _ (by simpa using hpb)]
        exact hivb
      · rw [List.find?_cons_of_neg _ (by simpa using hpb)] at hivb
        have hpv : ¬ (L.count (modeCore L b vs) ≤ L.count v) :=
          fun hle => hpb (le_trans hle (not_lt.1 h))
        rw [List.find?_cons_of_neg _ (by simpa using hpb),
          List.find?_cons_of_neg _ (by simpa using hpv)]
        exact hivb

lemma modeD_spec (l : List Val) (h : l ≠ []) :
    modeD l ∈ l
    ∧ (∀ v ∈ l, l.count v ≤ l.count (modeD l))
    ∧ l.find? (fun v => decide (l.count (modeD l) ≤ l.count v))
        = some (modeD l) := by
  cases l with
  | nil => exact absurd rfl h
  | cons x xs =>
    have hs := modeCore_spec (x :: xs) xs x
    refine ⟨?_, ?_, modeCore_first (x :: xs) xs x⟩
    · rcases hs.1 with h1 | h1
      · show modeCore (x :: xs) x xs ∈ x :: xs
        rw [h1]
        exact List.mem_cons_self x xs
      · exact List.mem_cons_of_mem x h1
    · intro v hv
      rcases List.mem_cons.1 hv with rfl | hv2
      · exact hs.2.1
      · exact hs.2.2.1 v hv2

/-! Cell-level behaviour of the fill step. -/

lemma getD_some_lt {l : List (Option Val)} {i : ℕ} {v : Val}
    (h : l.getD i none = some v) : i < l.length := by
  by_contra hn
  push_neg at hn
  rw [List.getD_eq_getElem?_getD, List.getElem?_eq_none hn] at h
  simp at h

lemma fillColumn_cells_of_some (c : Column) {i : ℕ} {v : Val}
    (h : c.cells.getD i none = some v) :
    (fillColumn c).cells.getD i none = some v := by
  show (match fillValue c with
    | none => c.cells
    | some w => c.cells.map fun y : Option Val => some (y.getD w)).getD i none
      = some v
  cases hf : fillValue c with
  | none => exact h
  | some w =>
    rw [getD_map_of_lt _ _ (getD_some_lt h) none none, h]
    rfl

lemma fillColumn_cells_of_none (c : Column) {i : ℕ} (hi : i < c.cells.length)
    (h : c.cells.getD i none = none) {v : Val} (hf : fillValue c = some v) :
    (fillColumn c).cells.getD i none = some v := by
  show (match fillValue c with
    | none => c.cells
    | some w => c.cells.map fun y : Option Val => some (y.getD w)).getD i none
      = some v
  rw [hf, getD_map_of_lt _ _ hi none none, h]
  rfl

lemma fillValue_float (c : Column) (h : obsVals c ≠ []) (hd : c.dtype = .float) :
    fillValue c = some (.float (meanQ ((obsVals c).map ratOf))) := by
  rw [fillValue, if_neg h, hd]

lemma fillValue_int (c : Column) (h : obsVals c ≠ []) (hd : c.dtype = .int) :
    fillValue c = some (.int (medianInt ((obsVals c).map intOf))) := by
  rw [fillValue, if_neg h, hd]

lemma fillValue_cat (c : Column) (h : obsVals c ≠ []) {o : Bool}
    {cats : List Val} (hd : c.dtype = .cat o cats) :
    fillValue c = some (modeD (obsVals c)) := by
  rw [fillValue, if_neg h, hd]

lemma fillValue_bool (c : Column) (h : obsVals c ≠ []) (hd : c.dtype = .bool) :
    fillValue c = some (modeD (obsVals c)) := by
  rw [fillValue, if_neg h, hd]

lemma fillColumn_cells_length (c : Column) :
    (fillColumn c).cells.length = c.cells.length := by
  show (match fillValue c with
    | none => c.cells
    | some w => c.cells.map fun y : Option Val => some (y.getD w)).length
      = c.cells.length
  cases fillValue c with
  | none => rfl
  | some w => exact List.length_map _ _

/-- C1: the `fi` strategy fills each column independently and
deterministically from that column's observed values: float columns with
the column mean, integer columns with the column median (computed from
an ascending sorted permutation of the observed values, truncated to an
integer), categorical and boolean columns with the column mode (most
frequent observed value, ties broken by the first-encountered value in
column order, witnessed by `find?`); every non-missing cell is left
untouched, and names and dtypes are unchanged. -/
theorem wrangle_na_fi_spec (t : Table) :
    wrangle_na t "fi" = .ok (fi t)
    ∧ (fi t).cols = t.cols.map fillColumn
    ∧ (∀ c : Column, (fillColumn c).name = c.name
        ∧ (fillColumn c).dtype = c.dtype
        ∧ (fillColumn c).cells.length = c.cells.length)
    ∧ (∀ c : Column, ∀ i : ℕ, ∀ v : Val, c.cells.getD i none = some v →
        (fillColumn c).cells.getD i none = some v)
    ∧ (∀ c : Column, ∀ i : ℕ, i < c.cells.length → obsVals c ≠ [] →
        c.cells.getD i none = none →
        (c.dtype = .float →
          (fillColumn c).cells.getD i none
            = some (.float (meanQ ((obsVals c).map ratOf))))
        ∧ (c.dtype = .int →
          (fillColumn c).cells.getD i none
            = some (.int (medianInt ((obsVals c).map intOf))))
        ∧ (∀ o : Bool, ∀ cats : List Val, c.dtype = .cat o cats →
          (fillColumn c).cells.getD i none = some (modeD (obsVals c)))
        ∧ (c.dtype = .bool →
          (fillColumn c).cells.getD i none = some (modeD (obsVals c))))
    ∧ (∀ l : List ℤ, List.Perm (sortInts l) l ∧ List.Sorted (· ≤ ·) (sortInts l))
    ∧ (∀ l : List Val, l ≠ [] →
        modeD l ∈ l
        ∧ (∀ v ∈ l, l.count v ≤ l.count (modeD l))
        ∧ l.find? (fun v => decide (l.count (modeD l) ≤ l.count v))
            = some (modeD l)) := by
  refine ⟨rfl, rfl, fun c => ⟨rfl, rfl, fillColumn_cells_length c⟩,
    fun c i v h => fillColumn_cells_of_some c h,
    fun c i hi hobs hnone => ⟨?_, ?_, ?_, ?_⟩,
    fun l => ⟨List.perm_insertionSort _ l, List.sorted_insertionSort _ l⟩,
    modeD_spec⟩
  · intro hd
    exact fillColumn_cells_of_none c hi hnone (fillValue_float c hobs hd)
  · intro hd
    exact fillColumn_cells_of_none c hi hnone (fillValue_int c hobs hd)
  · intro o cats hd
    exact fillColumn_cells_of_none c hi hnone (fillValue_cat c hobs hd)
  · intro hd
    exact fillColumn_cells_of_none c hi hnone (fillValue_bool c hobs hd)

/-- Witness for C1 on the mixed-dtype test table: the integer column's
missing cell is filled with the median 2, the float column's with the
mean 2.0, the boolean column's with the mode `false`, the categorical
column's with the mode "A", and an observed cell is untouched. -/
theorem wrangle_na_fi_spec_witness :
    (fillColumn intX).cells.getD 2 none = some (.int 2)
    ∧ (fillColumn floatX).cells.getD 1 none = some (.float 2)
    ∧ (fillColumn boolX).cells.getD 3 none = some (.bool false)
    ∧ (fillColumn catX).cells.getD 3 none = some (.str "A")
    ∧ (fillColumn intX).cells.getD 0 none = some (.int 1) := by
  have T := wrangle_na_fi_spec exampleT
  refine ⟨?_, ?_, ?_, ?_, ?_⟩
  · exact ((T.2.2.2.2.1 intX 2 (by decide) (by decide) (by decide)).2.1
      rfl).trans (by decide)
  · exact ((T.2.2.2.2.1 floatX 1 (by decide) (by decide) (by decide)).1
      rfl).trans (by norm_num [obsVals, floatX, meanQ, ratOf, List.filterMap])
  · exact ((T.2.2.2.2.1 boolX 3 (by decide) (by decide) (by decide)).2.2.2
      rfl).trans (by decide)
  · exact ((T.2.2.2.2.1 catX 3 (by decide) (by decide) (by decide)).2.2.1
      false [.str "A", .str "B"] rfl).trans (by decide)
  · exact T.2.2.2.1 intX 0 (.int 1) (by decide)

/-! Cell-level behaviour of the indicator and interaction columns. -/

lemma indicatorCol_cell (t : Table) (p : List Bool) {i : ℕ}
    (hi : i < t.index.length) :
    (indicatorCol t p).cells.getD i none
      = some (.bool (decide (rowPattern t i = p))) :=
  getD_range_map _ hi none

lemma interCol_cell (t : Table) (c : Column) (p : List Bool) {i : ℕ}
    (hi : i < t.index.length) :
    (interCol t c p).cells.getD i none
      = if rowPattern t i = p then none
        else (fillColumn c).cells.getD i none :=
  getD_range_map _ hi none

lemma mem_naPatterns (t : Table) {i : ℕ} (hi : i < t.index.length)
    (hany : (rowPattern t i).any id = true) :
    rowPattern t i ∈ naPatterns t :=
  List.mem_dedup.2 (List.mem_filter.2
    ⟨List.mem_map_of_mem _ (List.mem_range.2 hi), hany⟩)

lemma countP_eq_one_of_nodup {α : Type} {l : List α} {q : α → Bool} {a : α}
    (hn : l.Nodup) (ha : a ∈ l) (hq : ∀ x ∈ l, q x = true ↔ x = a) :
    l.countP q = 1 := by
  induction l with
  | nil => cases ha
  | cons x xs ih =>
    rw [List.countP_cons]
    rcases List.mem_cons.1 ha with he | hmem
    · have hx : q x = true := (hq x (List.mem_cons_self x xs)).2 he.symm
      have h0 : xs.countP q = 0 := by
        rw [List.countP_eq_zero]
        intro y hy hqy
        have hya : y = x := ((hq y (List.mem_cons_of_mem x hy)).1 hqy).trans he
        exact (List.nodup_cons.1 hn).1 (hya ▸ hy)
      rw [hx, h0]
      rfl
    · have hxa : x ≠ a := fun he => (List.nodup_cons.1 hn).1 (he ▸ hmem)
      have hx : q x = false := by
        by_contra hb
        exact hxa ((hq x (List.mem_cons_self x xs)).1 (by simpa using hb))
      rw [hx]
      simp only [Bool.false_eq_true, if_false, Nat.add_zero]
      exact ih (List.nodup_cons.1 hn).2 hmem
        (fun y hy => hq y (List.mem_cons_of_mem x hy))

/-- C4: for the fill-based strategies `fii` and `gm` the appended
indicator columns partition the rows with any missingness: every
materialized pattern has at least one missing column (the all-zero
pattern never produces a column), a row with missingness has exactly one
indicator column true (the one whose pattern it matches), and a fully
observed row is false in every indicator column. -/
theorem na_indicator_partition (t : Table) :
    (fii t).cols = (fi t).cols ++ indicatorCols t
    ∧ (gm t).cols = (fi t).cols ++ indicatorCols t ++ interCols t
    ∧ (∀ p ∈ naPatterns t, p.any id = true)
    ∧ (∀ i : ℕ, i < t.index.length →
        ((rowPattern t i).any id = true →
          (indicatorCols t).countP
            (fun c => decide (c.cells.getD i none = some (.bool true))) = 1)
        ∧ ((rowPattern t i).any id = false →
          ∀ c ∈ indicatorCols t, c.cells.getD i none = some (.bool false))
        ∧ (∀ p ∈ naPatterns t,
          ((indicatorCol t p).cells.getD i none = some (.bool true)
            ↔ rowPattern t i = p))) := by
  refine ⟨rfl, rfl, ?_, ?_⟩
  · intro p hp
    exact (List.mem_filter.1 (List.mem_dedup.1 hp)).2
  · intro i hi
    refine ⟨?_, ?_, ?_⟩
    · intro hany
      rw [indicatorCols, List.countP_map]
      refine countP_eq_one_of_nodup (List.nodup_dedup _)
        (mem_naPatterns t hi hany) ?_
      intro p hp
      simp only [Function.comp_apply, indicatorCol_cell t p hi,
        decide_eq_true_eq, Option.some.injEq, Val.bool.injEq]
      exact eq_comm
    · intro h0 c hc
      obtain ⟨p, hp, rfl⟩ := List.mem_map.1 hc
      have hpa := (List.mem_filter.1 (List.mem_dedup.1 hp)).2
      have hne : rowPattern t i ≠ p := by
        intro he
        rw [← he, h0] at hpa
        cases hpa
      rw [indicatorCol_cell t p hi]
      simp [hne]
    · intro p hp
      rw [indicatorCol_cell t p hi]
      constructor
      · intro h
        simpa using h
      · intro h
        simp [h]

/-- Witness for C4 on the mixed-dtype test table: row 2 has missing
data, and exactly one indicator column is true there. -/
theorem na_indicator_partition_witness :
    (indicatorCols exampleT).countP
      (fun c => decide (c.cells.getD 2 none = some (.bool true))) = 1 :=
  ((na_indicator_partition exampleT).2.2.2 2 (by decide)).1 (by decide)

/-- C10: under the `gm` strategy, the interaction column of a feature
column and an indicator column holds the missing marker exactly on the
rows where the indicator is 1 (the rows whose original data matched that
missingness pattern, provided the filled feature cell is observed), and
equals the filled feature value on every row where the indicator is 0. -/
theorem gm_interaction_pattern_spec (t : Table) :
    (gm t).cols = (fi t).cols ++ indicatorCols t ++ interCols t
    ∧ interCols t = concatMap (fun c => (naPatterns t).map (interCol t c)) t.cols
    ∧ (∀ c ∈ t.cols, ∀ p ∈ naPatterns t, interCol t c p ∈ (gm t).cols)
    ∧ (∀ c : Column, ∀ p : List Bool, ∀ i : ℕ, i < t.index.length →
        (rowPattern t i = p → (interCol t c p).cells.getD i none = none)
        ∧ (rowPattern t i ≠ p →
            (interCol t c p).cells.getD i none = (fillColumn c).cells.getD i none)
        ∧ ((fillColumn c).cells.getD i none ≠ none →
            ((interCol t c p).cells.getD i none = none ↔ rowPattern t i = p))
        ∧ ((indicatorCol t p).cells.getD i none = some (.bool true)
            ↔ rowPattern t i = p)) := by
  refine ⟨rfl, rfl, ?_, ?_⟩
  · intro c hc p hp
    exact List.mem_append.2 (Or.inr (mem_concatMap.2
      ⟨c, hc, List.mem_map_of_mem _ hp⟩))
  · intro c p i hi
    refine ⟨?_, ?_, ?_, ?_⟩
    · intro h
      rw [interCol_cell t c p hi, if_pos h]
    · intro h
      rw [interCol_cell t c p hi, if_neg h]
    · intro hobs
      rw [interCol_cell t c p hi]
      constructor
      · intro h
        by_contra hne
        rw [if_neg hne] at h
        exact hobs h
      · intro h
        rw [if_pos h]
    · rw [indicatorCol_cell t p hi]
      constructor
      · intro h
        simpa using h
      · intro h
        simp [h]

/-- Witness for C10 on the mixed-dtype test table: the (int_x, na_1000)
interaction cell is the missing marker at row 2, whose pattern the
indicator matches, and equals the filled value 1 at the fully observed
row 0. -/
theorem gm_interaction_pattern_spec_witness :
    (interCol exampleT intX [true, false, false, false]).cells.getD 2 none = none
    ∧ (interCol exampleT intX [true, false, false, false]).cells.getD 0 none
        = some (.int 1) := by
  have T := (gm_interaction_pattern_spec exampleT).2.2.2
  constructor
  · exact (T intX [true, false, false, false] 2 (by decide)).1 (by decide)
  · exact ((T intX [true, false, false, false] 0 (by decide)).2.1
      (by decide)).trans (by decide)

/-- Counterexample to C3 as stated: on the mixed-dtype test table the
`gm` output's interaction column of feature `int_x` and indicator
`na_1000` holds the missing marker, not the retained imputed value 2, at
row 2 — the row whose original `int_x` cell was missing. -/
theorem gm_interaction_value_counterexample :
    ((gm exampleT).cols.find? fun c => c.name = interName "int_x" "na_1000")
      = some (interCol exampleT intX [true, false, false, false])
    ∧ (interCol exampleT intX [true, false, false, false]).cells.getD 2 none
        = none
    ∧ (interCol exampleT intX [true, false, false, false]).cells.getD 2 none
        ≠ some (.int 2) := ⟨by decide, by decide, by decide⟩

/-- C3 as amended: the `gm` strategy appends, for every (feature column,
indicator column) pair, an interaction column whose dtype mirrors the
feature column, whose value equals the filled feature value on every row
where the indicator is 0, and which holds the missing marker (not the
imputed value) on the rows where the indicator is 1. -/
theorem gm_interaction_masked_spec (t : Table) :
    ∀ c ∈ t.cols, ∀ p ∈ naPatterns t,
      interCol t c p ∈ (gm t).cols
      ∧ (interCol t c p).name = interName c.name (naName p)
      ∧ (interCol t c p).dtype = c.dtype
      ∧ (interCol t c p).cells = (List.range t.index.length).map (fun i =>
          if rowPattern t i = p then none else (fillColumn c).cells.getD i none)
      ∧ (∀ i : ℕ, i < t.index.length →
          ((indicatorCol t p).cells.getD i none = some (.bool false) →
            (interCol t c p).cells.getD i none
              = (fillColumn c).cells.getD i none)
          ∧ ((indicatorCol t p).cells.getD i none = some (.bool true) →
            (interCol t c p).cells.getD i none = none)) := by
  intro c hc p hp
  refine ⟨?_, rfl, rfl, rfl, ?_⟩
  · show interCol t c p ∈ (fi t).cols ++ indicatorCols t ++ interCols t
    exact List.mem_append.2 (Or.inr (mem_concatMap.2
      ⟨c, hc, List.mem_map_of_mem _ hp⟩))
  · intro i hi
    constructor
    · intro h
      rw [indicatorCol_cell t p hi] at h
      have hne : rowPattern t i ≠ p := by
        intro he
        simp [he] at h
      rw [interCol_cell t c p hi, if_neg hne]
    · intro h
      rw [indicatorCol_cell t p hi] at h
      have he : rowPattern t i = p := by
        simpa using h
      rw [interCol_cell t c p hi, if_pos he]

/-- Witness for the amended C3 on the mixed-dtype test table: where the
na_0100 indicator is 0 at row 2, the (int_x, na_0100) interaction equals
the filled value 2; where it is 1 at row 1, it is the missing marker. -/
theorem gm_interaction_masked_spec_witness :
    (interCol exampleT intX [false, true, false, false]).cells.getD 2 none
      = some (.int 2)
    ∧ (interCol exampleT intX [false, true, false, false]).cells.getD 1 none
      = none := by
  have T := (gm_interaction_masked_spec exampleT intX (by decide)
    [false, true, false, false] (by decide)).2.2.2.2
  constructor
  · exact ((T 2 (by decide)).1 (by decide)).trans (by decide)
  · exact (T 1 (by decide)).2 (by decide)

/-! Name canonicalizer (`_column_wrangler`). -/

/-- Whitespace characters recognized by the canonicalizer. -/
def isWs (c : Char) : Bool :=
  c == ' ' || c == '\t' || c == '\n' || c == '\r'

/-- Collapse every maximal whitespace run into a single underscore; the
flag records whether the previous character was whitespace. -/
def collapseWs : Bool → List Char → List Char
  | _, [] => []
  | prevWs, c :: cs =>
    if isWs c then
      if prevWs then collapseWs true cs
      else '_' :: collapseWs true cs
    else c :: collapseWs false cs

/-- Strip leading and trailing whitespace. -/
def trimChars (l : List Char) : List Char :=
  ((l.dropWhile isWs).reverse.dropWhile isWs).reverse

/-- Modelled from the spec: the canonical form of one column label of
the missing `src/tasks.py`: lowercase, leading/trailing whitespace
trimmed, internal whitespace runs collapsed to a single underscore. -/
def canonName (s : String) : String :=
  ⟨collapseWs false (trimChars (s.data.map Char.toLower))⟩

/-- Modelled from the spec: `_column_wrangler` relabels every column
with its canonical name and alters no cell value. -/
def _column_wrangler (t : Table) : Table where
  index := t.index
  cols := t.cols.map fun c => { c with name := canonName c.name }

lemma toNat_ofNat_of_valid {n : ℕ} (h : n.isValidChar) :
    (Char.ofNat n).toNat = n := by
  rw [Char.ofNat, dif_pos h]
  rfl

lemma toLower_toLower (c : Char) : c.toLower.toLower = c.toLower := by
  by_cases h : c.toNat ≥ 65 ∧ c.toNat ≤ 90
  · have hv : (c.toNat + 32).isValidChar := Or.inl (by omega)
    have h1 : c.toLower = Char.ofNat (c.toNat + 32) := by
      simp only [Char.toLower]
      rw [if_pos h]
    have h2 : (Char.ofNat (c.toNat + 32)).toLower = Char.ofNat (c.toNat + 32) := by
      simp only [Char.toLower]
      rw [toNat_ofNat_of_valid hv, if_neg (by omega)]
    rw [h1, h2]
  · have h1 : c.toLower = c := by
      simp only [Char.toLower]
      rw [if_neg h]
    rw [h1, h1]

lemma isWs_of_mem_collapseWs :
    ∀ (l : List Char) (p : Bool), ∀ c ∈ collapseWs p l, isWs c = false := by
  intro l
  induction l with
  | nil =>
    intro p c hc
    cases hc
  | cons d ds ih =>
    intro p c hc
    rw [collapseWs] at hc
    by_cases h : isWs d = true
    · rw [if_pos h] at hc
      cases p with
      | true =>
        rw [if_pos rfl] at hc
        exact ih true c hc
      | false =>
        rw [if_neg (by decide)] at hc
        rcases List.mem_cons.1 hc with he | hm
        · rw [he]
          decide
        · exact ih true c hm
    · rw [if_neg h] at hc
      rcases List.mem_cons.1 hc with he | hm
      · rw [he]
        simpa using h
      · exact ih false c hm

lemma mem_of_mem_collapseWs :
    ∀ (l : List Char) (p : Bool), ∀ c ∈ collapseWs p l, c = '_' ∨ c ∈ l := by
  intro l
  induction l with
  | nil =>
    intro p c hc
    cases hc
  | cons d ds ih =>
    intro p c hc
    rw [collapseWs] at hc
    by_cases h : isWs d = true
    · rw [if_pos h] at hc
      cases p with
      | true =>
        rcases ih true c hc with h1 | h1
        · exact Or.inl h1
        · exact Or.inr (List.mem_cons_of_mem d h1)
      | false =>
        rw [if_neg (by decide)] at hc
        rcases List.mem_cons.1 hc with he | hm
        · exact Or.inl he
        · rcases ih true c hm with h1 | h1
          · exact Or.inl h1
          · exact Or.inr (List.mem_cons_of_mem d h1)
    · rw [if_neg h] at hc
      rcases List.mem_cons.1 hc with he | hm
      · exact Or.inr (he ▸ List.mem_cons_self d ds)
      · rcases ih false c hm with h1 | h1
        · exact Or.inl h1
        · exact Or.inr (List.mem_cons_of_mem d h1)

lemma collapseWs_eq_self (l : List Char) (h : ∀ c ∈ l, isWs c = false) :
    ∀ p : Bool, collapseWs p l = l := by
  induction l with
  | nil =>
    intro p
    rfl
  | cons d ds ih =>
    intro p
    rw [collapseWs, if_neg (by rw [h d (List.mem_cons_self d ds)]; decide)]
    rw [ih (fun c hc => h c (List.mem_cons_of_mem d hc)) false]

lemma dropWhile_eq_self_of_isWs (l : List Char)
    (h : ∀ c ∈ l, isWs c = false) : l.dropWhile isWs = l := by
  cases l with
  | nil => rfl
  | cons d ds =>
    rw [List.dropWhile_cons, if_neg]
    rw [h d (List.mem_cons_self d ds)]
    decide

lemma trimChars_eq_self (l : List Char) (h : ∀ c ∈ l, isWs c = false) :
    trimChars l = l := by
  rw [trimChars, dropWhile_eq_self_of_isWs l h,
    dropWhile_eq_self_of_isWs _ (fun c hc => h c (List.mem_reverse.1 hc)),
    List.reverse_reverse]

lemma mem_of_mem_trimChars {l : List Char} {c : Char} (h : c ∈ trimChars l) :
    c ∈ l := by
  rw [trimChars] at h
  have h1 := (List.dropWhile_sublist _).subset (List.mem_reverse.1 h)
  exact (List.dropWhile_sublist _).subset (List.mem_reverse.1 h1)

lemma canonName_chars (s : String) :
    ∀ c ∈ (canonName s).data, isWs c = false ∧ c.toLower = c := by
  intro c hc
  have hc2 : c ∈ collapseWs false (trimChars (s.data.map Char.toLower)) := hc
  refine ⟨isWs_of_mem_collapseWs _ false c hc2, ?_⟩
  rcases mem_of_mem_collapseWs _ false c hc2 with h1 | h1
  · rw [h1]
    decide
  · obtain ⟨a, _, rfl⟩ := List.mem_map.1 (mem_of_mem_trimChars h1)
    exact toLower_toLower a

lemma canonName_idem (s : String) : canonName (canonName s) = canonName s := by
  have h := canonName_chars s
  show (⟨collapseWs false (trimChars ((canonName s).data.map Char.toLower))⟩
    : String) = canonName s
  rw [List.map_congr_left (fun c hc => (h c hc).2), List.map_id',
    trimChars_eq_self _ (fun c hc => (h c hc).1),
    collapseWs_eq_self _ (fun c hc => (h c hc).1) false]

/-- C7: the name canonicalizer lowercases, trims and collapses internal
whitespace runs of every column label to single underscores, alters no
cell value (and no dtype and no row identifier), and is idempotent, both
per label and on whole tables. -/
theorem column_wrangler_spec (t : Table) :
    (_column_wrangler t).index = t.index
    ∧ (_column_wrangler t).cols.map Column.name
        = t.cols.map (fun c => canonName c.name)
    ∧ (_column_wrangler t).cols.map Column.cells = t.cols.map Column.cells
    ∧ (_column_wrangler t).cols.map Column.dtype = t.cols.map Column.dtype
    ∧ (∀ s : String, canonName s
        = ⟨collapseWs false (trimChars (s.data.map Char.toLower))⟩)
    ∧ (∀ s : String, canonName (canonName s) = canonName s)
    ∧ _column_wrangler (_column_wrangler t) = _column_wrangler t := by
  refine ⟨rfl, ?_, ?_, ?_, fun s => rfl, canonName_idem, ?_⟩
  · show (t.cols.map _).map Column.name = _
    rw [List.map_map]
    exact List.map_congr_left fun c _ => rfl
  · show (t.cols.map _).map Column.cells = _
    rw [List.map_map]
    exact List.map_congr_left fun c _ => rfl
  · show (t.cols.map _).map Column.dtype = _
    rw [List.map_map]
    exact List.map_congr_left fun c _ => rfl
  · show Table.mk t.index ((t.cols.map _).map _) = Table.mk t.index (t.cols.map _)
    rw [List.map_map]
    exact congrArg (Table.mk t.index) (List.map_congr_left fun c _ =>
      congrArg (fun nm => Column.mk nm c.dtype c.cells) (canonName_idem c.name))

/-- Witness for C7 on the labels of `test_column_wrangler`: mixed case
is lowered, whitespace is trimmed, and the internal run in
" column  4 " becomes one underscore; a second application is the
identity. -/
theorem column_wrangler_spec_witness :
    canonName (canonName " column  4 ") = canonName " column  4 "
    ∧ canonName " column  4 " = "column_4"
    ∧ canonName "cOLUmn2" = "column2"
    ∧ canonName "    cOLUmn3 " = "column3" := by
  refine ⟨(column_wrangler_spec ⟨[], []⟩).2.2.2.2.2.1 " column  4 ",
    ?_, ?_, ?_⟩
  · decide
  · decide
  · decide

/-! Type wrangler: explicit per-column category restriction
(`_factor_wrangler`). -/

/-- Modelled from the spec: restricting a column to an explicit category
list.  Observed values outside the list become the missing marker,
values inside are unchanged, and the resulting categorical dtype fixes
its category set to exactly the given list. -/
def setCategories (ordered : Bool) (cats : List Val) (c : Column) : Column where
  name := c.name
  dtype := .cat ordered cats
  cells := c.cells.map fun x => x.bind fun v => if v ∈ cats then some v else none

/-- Modelled from the spec: the categorical rule of `_factor_wrangler`
with an explicit `categories` mapping: every column named in the mapping
is restricted to its given category list; other columns are untouched. -/
def _factor_wrangler (categories : List (String × List Val)) (t : Table) :
    Table where
  index := t.index
  cols := t.cols.map fun c =>
    match categories.lookup c.name with
    | some cats => setCategories false cats c
    | none => c

/-- C8: for every column given an explicit `categories` restriction, any
observed value outside the category set becomes the missing marker,
observed values inside the set are unchanged, missing cells stay
missing, and the resulting categorical dtype fixes its category set to
exactly the given list; columns named in the `categories` mapping are
restricted in place by `_factor_wrangler`. -/
theorem factor_wrangler_categories_spec (ordered : Bool) (cats : List Val)
    (c : Column) :
    (setCategories ordered cats c).name = c.name
    ∧ (setCategories ordered cats c).dtype = .cat ordered cats
    ∧ (setCategories ordered cats c).cells.length = c.cells.length
    ∧ (∀ i : ℕ, ∀ v : Val, c.cells.getD i none = some v → v ∈ cats →
        (setCategories ordered cats c).cells.getD i none = some v)
    ∧ (∀ i : ℕ, ∀ v : Val, c.cells.getD i none = some v → v ∉ cats →
        (setCategories ordered cats c).cells.getD i none = none)
    ∧ (∀ i : ℕ, i < c.cells.length → c.cells.getD i none = none →
        (setCategories ordered cats c).cells.getD i none = none)
    ∧ (∀ t : Table, ∀ cs : List (String × List Val), c ∈ t.cols →
        cs.lookup c.name = some cats →
        setCategories false cats c ∈ (_factor_wrangler cs t).cols) := by
  refine ⟨rfl, rfl, List.length_map _ _, ?_, ?_, ?_, ?_⟩
  · intro i v h hv
    show (c.cells.map fun x => x.bind fun w =>
      if w ∈ cats then some w else none).getD i none = some v
    rw [getD_map_of_lt _ _ (getD_some_lt h) none none, h]
    simp [hv]
  · intro i v h hv
    show (c.cells.map fun x => x.bind fun w =>
      if w ∈ cats then some w else none).getD i none = none
    rw [getD_map_of_lt _ _ (getD_some_lt h) none none, h]
    simp [hv]
  · intro i hi h
    show (c.cells.map fun x => x.bind fun w =>
      if w ∈ cats then some w else none).getD i none = none
    rw [getD_map_of_lt _ _ hi none none, h]
    rfl
  · intro t cs hc hl
    have he : (fun c2 : Column => match cs.lookup c2.name with
        | some cats2 => setCategories false cats2 c2
        | none => c2) c = setCategories false cats c := by
      show (match cs.lookup c.name with
        | some cats2 => setCategories false cats2 c
        | none => c) = setCategories false cats c
      rw [hl]
    exact he ▸ List.mem_map_of_mem _ hc

/-- Column of `test_factor_wrangler_cats` whose value -1 falls outside
the category restriction [0, 1, 2, 3]. -/
def nonNeg : Column where
  name := "non_neg"
  dtype := .int
  cells := [some (.int (-1)), some (.int 0), some (.int 1), some (.int 2),
    some (.int 3)]

/-- Witness for C8 on the `test_factor_wrangler_cats` scenario: the -1
cell becomes missing, the 0 cell is unchanged, and the dtype fixes the
categories to exactly [0, 1, 2, 3]. -/
theorem factor_wrangler_categories_spec_witness :
    (setCategories false [.int 0, .int 1, .int 2, .int 3] nonNeg).cells.getD
      0 none = none
    ∧ (setCategories false [.int 0, .int 1, .int 2, .int 3] nonNeg).cells.getD
      1 none = some (.int 0)
    ∧ (setCategories false [.int 0, .int 1, .int 2, .int 3] nonNeg).dtype
      = .cat false [.int 0, .int 1, .int 2, .int 3] := by
  have T := factor_wrangler_categories_spec false
    [.int 0, .int 1, .int 2, .int 3] nonNeg
  exact ⟨T.2.2.2.2.1 0 (.int (-1)) (by decide) (by decide),
    T.2.2.2.1 1 (.int 0) (by decide) (by decide), T.2.1⟩

/-! Gelman standardizer (`gelman_standardize_data`).  Floating-point
columns are idealized as exact reals, since the contract divides by a
square root. -/

/-- Observed (non-missing) entries of a real-valued column. -/
def obsR (xs : List (Option ℝ)) : List ℝ := xs.filterMap id

/-- Sum of a list of reals. -/
noncomputable def lsum (l : List ℝ) : ℝ := l.foldr (· + ·) 0

/-- Mean of a list of reals. -/
noncomputable def lmean (l : List ℝ) : ℝ := lsum l / l.length

/-- Sample variance (denominator n - 1, as pandas `std` uses). -/
noncomputable def lvar (l : List ℝ) : ℝ :=
  lsum (l.map fun x => (x - lmean l) ^ 2) / (l.length - 1)

/-- Sample standard deviation. -/
noncomputable def lsd (l : List ℝ) : ℝ := Real.sqrt (lvar l)

/-- Modelled from the spec: the per-cell map of the standardizer on a
numeric column: subtract the column mean and divide by twice the column
standard deviation. -/
noncomputable def stdFun (l : List ℝ) (x : ℝ) : ℝ := (x - lmean l) / (2 * lsd l)

/-- Standardize the cells of a numeric column; missing entries stay
missing. -/
noncomputable def stdNumCells (xs : List (Option ℝ)) : List (Option ℝ) :=
  xs.map (Option.map (stdFun (obsR xs)))

/-- Numeric 0/1 reading of a boolean. -/
noncomputable def boolToR (b : Bool) : ℝ := if b then 1 else 0

/-- Modelled from the spec: a boolean column is converted to numeric 0/1
and centered by subtracting the column mean, with no division; missing
entries stay missing. -/
noncomputable def stdBoolCells (bs : List (Option Bool)) : List (Option ℝ) :=
  bs.map (Option.map fun b => boolToR b - lmean ((bs.filterMap id).map boolToR))

/-- Modelled from the spec: a column for the standardizer: numeric
(float or nullable integer, tagged by `isInt`), boolean, categorical or
string. -/
inductive RCol where
  | num (name : String) (isInt : Bool) (cells : List (Option ℝ))
  | bool (name : String) (cells : List (Option Bool))
  | cat (name : String) (ordered : Bool) (cats : List String)
      (cells : List (Option String))
  | str (name : String) (cells : List (Option String))

/-- Modelled from the spec: `gelman_standardize_data` on one column:
numeric columns are standardized to float, boolean columns are converted
to centered numeric float, categorical and string columns pass through
unchanged. -/
noncomputable def gelman_standardize_col : RCol → RCol
  | .num n _ xs => .num n false (stdNumCells xs)
  | .bool n bs => .num n false (stdBoolCells bs)
  | .cat n o cs cells => .cat n o cs cells
  | .str n cells => .str n cells

/-- Modelled from the spec: the standardizer applied to every column of
a table. -/
noncomputable def gelman_standardize_data (t : List RCol) : List RCol :=
  t.map gelman_standardize_col

lemma lsum_map_affine (a b : ℝ) (l : List ℝ) :
    lsum (l.map fun x => a * x + b) = a * lsum l + b * l.length := by
  induction l with
  | nil => simp [lsum]
  | cons x xs ih =>
    simp only [List.map_cons, lsum, List.foldr_cons, List.length_cons] at *
    rw [ih]
    push_cast
    ring

lemma length_ne_zero_cast {l : List ℝ} (h : l ≠ []) : (l.length : ℝ) ≠ 0 := by
  have h0 : l.length ≠ 0 := by
    simpa [List.length_eq_zero] using h
  exact_mod_cast h0

lemma lmean_map_affine (a b : ℝ) (l : List ℝ) (h : l ≠ []) :
    lmean (l.map fun x => a * x + b) = a * lmean l + b := by
  have hn := length_ne_zero_cast h
  rw [lmean, lsum_map_affine, List.length_map, lmean]
  field_simp

lemma lvar_map_affine (a b : ℝ) (l : List ℝ) (h : l ≠ []) :
    lvar (l.map fun x => a * x + b) = a ^ 2 * lvar l := by
  rw [lvar, lvar, List.length_map, lmean_map_affine a b l h, List.map_map]
  have he : ((fun x => (x - (a * lmean l + b)) ^ 2) ∘ fun x => a * x + b)
      = ((fun y => a ^ 2 * y + 0) ∘ fun x => (x - lmean l) ^ 2) := by
    funext x
    simp only [Function.comp_apply]
    ring
  rw [he, ← List.map_map, lsum_map_affine, List.length_map]
  ring

lemma obsR_map (f : ℝ → ℝ) (xs : List (Option ℝ)) :
    obsR (xs.map (Option.map f)) = (obsR xs).map f := by
  induction xs with
  | nil => rfl
  | cons x xs ih =>
    cases x with
    | none => simpa [obsR, List.filterMap_cons] using ih
    | some v => simpa [obsR, List.filterMap_cons] using ih

/-- C6: the standardizer maps each numeric column cellwise to
(x - mean) / (2 * sd) as a float column, maps each boolean column to
numeric 0/1 centered by the column mean with no division, passes
categorical and string columns through unchanged, keeps every missing
entry missing, and (for a column with positive sample variance) the
standardized values have mean 0 and standard deviation exactly 1/2. -/
theorem gelman_standardize_spec (t : List RCol) :
    gelman_standardize_data t = t.map gelman_standardize_col
    ∧ (∀ n : String, ∀ i : Bool, ∀ xs : List (Option ℝ),
        gelman_standardize_col (.num n i xs) = .num n false (stdNumCells xs))
    ∧ (∀ n : String, ∀ bs : List (Option Bool),
        gelman_standardize_col (.bool n bs) = .num n false (stdBoolCells bs))
    ∧ (∀ n : String, ∀ o : Bool, ∀ cs : List String,
        ∀ cells : List (Option String),
        gelman_standardize_col (.cat n o cs cells) = .cat n o cs cells)
    ∧ (∀ n : String, ∀ cells : List (Option String),
        gelman_standardize_col (.str n cells) = .str n cells)
    ∧ (∀ xs : List (Option ℝ), stdNumCells xs
        = xs.map (Option.map fun x =>
            (x - lmean (obsR xs)) / (2 * Real.sqrt (lvar (obsR xs)))))
    ∧ (∀ xs : List (Option ℝ), ∀ j : ℕ,
        (stdNumCells xs)[j]? = some none ↔ xs[j]? = some none)
    ∧ (∀ bs : List (Option Bool), stdBoolCells bs
        = bs.map (Option.map fun b =>
            boolToR b - lmean ((bs.filterMap id).map boolToR)))
    ∧ (∀ xs : List (Option ℝ), 0 < lvar (obsR xs) →
        lmean (obsR (stdNumCells xs)) = 0
        ∧ lvar (obsR (stdNumCells xs)) = 1 / 4
        ∧ Real.sqrt (lvar (obsR (stdNumCells xs))) = 1 / 2) := by
  refine ⟨rfl, fun n i xs => rfl, fun n bs => rfl, fun n o cs cells => rfl,
    fun n cells => rfl, fun xs => rfl, ?_, fun bs => rfl, ?_⟩
  · intro xs j
    rw [stdNumCells, List.getElem?_map]
    cases hx : xs[j]? with
    | none => simp
    | some x =>
      cases x with
      | none => simp
      | some v => simp
  · intro xs h
    have hs : obsR (stdNumCells xs) = (obsR xs).map (stdFun (obsR xs)) :=
      obsR_map _ xs
    have hσ : 0 < Real.sqrt (lvar (obsR xs)) := Real.sqrt_pos.2 h
    have hσne : Real.sqrt (lvar (obsR xs)) ≠ 0 := ne_of_gt hσ
    have hσ2 : Real.sqrt (lvar (obsR xs)) ^ 2 = lvar (obsR xs) :=
      Real.sq_sqrt h.le
    have hlne : lvar (obsR xs) ≠ 0 := ne_of_gt h
    have hne : obsR xs ≠ [] := by
      intro h0
      rw [h0] at h
      norm_num [lvar, lmean, lsum] at h
    have haff : stdFun (obsR xs) = fun x =>
        (1 / (2 * Real.sqrt (lvar (obsR xs)))) * x
          + (-(lmean (obsR xs)) / (2 * Real.sqrt (lvar (obsR xs)))) := by
      funext x
      rw [stdFun, lsd]
      field_simp
      ring
    have hm : lmean (obsR (stdNumCells xs)) = 0 := by
      rw [hs, haff, lmean_map_affine _ _ _ hne]
      field_simp
    have hv : lvar (obsR (stdNumCells xs)) = 1 / 4 := by
      rw [hs, haff, lvar_map_affine _ _ _ hne, div_pow, one_pow, mul_pow,
        hσ2]
      field_simp
      ring
    refine ⟨hm, hv, ?_⟩
    rw [hv, show (1 / 4 : ℝ) = (1 / 2) ^ 2 by norm_num,
      Real.sqrt_sq (by norm_num)]

/-- Witness for C6 on the concrete numeric column [1, 2, 3]: its sample
variance 1 is positive, and after standardization the observed values
have mean 0, variance 1/4 and standard deviation 1/2. -/
theorem gelman_standardize_spec_witness :
    lmean (obsR (stdNumCells [some 1, some 2, some 3])) = 0
    ∧ lvar (obsR (stdNumCells [some 1, some 2, some 3])) = 1 / 4
    ∧ Real.sqrt (lvar (obsR (stdNumCells [some 1, some 2, some 3]))) = 1 / 2 :=
  (gelman_standardize_spec []).2.2.2.2.2.2.2.2 [some 1, some 2, some 3] (by
    have h : obsR [some (1 : ℝ), some 2, some 3] = [1, 2, 3] := by
      simp [obsR, List.filterMap_cons]
    rw [h]
    norm_num [lvar, lmean, lsum])

end Datathon
